import Mathlib

/-!
Verification of the markdown-to-PDF rendering engine
(`src/markdown_to_pdf.py` and `src/filehandle.py`).

The Python code is shallowly embedded: strings become `List Char`,
the reportlab canvas becomes an abstract trace of drawing commands,
string-width measurement (`pdf.stringWidth`) becomes an abstract
function parameter, and the vertical cursor `y_position` is threaded
explicitly.  Every emitted drawing command is annotated with the value
of `y_position` at the moment it is issued.
-/

namespace MdPdf

/-- Python strings are modelled as lists of characters. -/
abbrev Str := List Char

/-- ASCII whitespace, the characters recognised by Python `str.split()` /
`str.strip()` for the inputs considered here. -/
def isPySpace (c : Char) : Bool :=
  c == ' ' || c == '\t' || c == '\n' || c == '\r' || c == '\x0b' || c == '\x0c'

/-- Python `str.strip()`: drop whitespace from both ends. -/
def pyStrip (l : Str) : Str :=
  ((l.dropWhile isPySpace).reverse.dropWhile isPySpace).reverse

/-- Python `s.split(sep)` for a one-character separator: keeps empty pieces,
always returns at least one piece. -/
def splitOnChar (sep : Char) : Str → List Str
  | [] => [[]]
  | c :: cs =>
    match splitOnChar sep cs with
    | [] => [[]]
    | h :: t => if c = sep then [] :: h :: t else (c :: h) :: t

/-- Helper for `pySplit`: `acc` holds the reversed current word. -/
def pySplitAux : Str → Str → List Str
  | acc, [] => if acc = [] then [] else [acc.reverse]
  | acc, c :: cs =>
    if isPySpace c then
      if acc = [] then pySplitAux [] cs else acc.reverse :: pySplitAux [] cs
    else pySplitAux (c :: acc) cs

/-- Python `str.split()` with no argument: split on runs of whitespace,
dropping empty pieces. -/
def pySplit (l : Str) : List Str := pySplitAux [] l

/-- Python `' '.join(words)`. -/
def joinSp : List Str → Str
  | [] => []
  | [w] => w
  | w :: ws => w ++ ' ' :: joinSp ws

/-- Python slice `l[a:b]` (for `0 ≤ a ≤ b`). -/
def slice (l : Str) (a b : Nat) : Str := (l.drop a).take (b - a)

/-- Helper for `pyFind`, structurally recursive on a fuel counter. -/
def pyFindAux (l pat : Str) : Nat → Nat → Option Nat
  | _, 0 => none
  | start, fuel+1 =>
    if l.length < start + pat.length then none
    else if pat.isPrefixOf (l.drop start) then some start
    else pyFindAux l pat (start+1) fuel

/-- Python `l.find(pat, start)`: index of the first occurrence of `pat` at or
after `start`, `none` standing for Python's `-1`. -/
def pyFind (l pat : Str) (start : Nat) : Option Nat :=
  pyFindAux l pat start (l.length + 1)

/-- Helper for `pyReplace`, structurally recursive on a fuel counter.  When the
pattern matches at the current position the scan continues after the matched
text, exactly like Python `str.replace`. -/
def pyReplaceF (pat rep : Str) : Nat → Str → Str
  | 0, l => l
  | _+1, [] => []
  | fuel+1, c :: cs =>
    if pat.isPrefixOf (c :: cs) then
      rep ++ pyReplaceF pat rep fuel ((c :: cs).drop pat.length)
    else c :: pyReplaceF pat rep fuel cs

/-- Python `l.replace(pat, rep)` (all occurrences, left to right,
non-overlapping).  `l.length` is sufficient fuel because every step of
`pyReplaceF` consumes at least one character of a non-empty pattern. -/
def pyReplace (pat rep l : Str) : Str :=
  if pat = [] then l else pyReplaceF pat rep l.length l

/-- U+2014 em dash. -/
def emDash : Char := Char.ofNat 0x2014

/-- U+2013 en dash. -/
def enDash : Char := Char.ofNat 0x2013

/-- U+2212 minus sign. -/
def minusSign : Char := Char.ofNat 0x2212

/-- U+2010 hyphen. -/
def uniHyphen : Char := Char.ofNat 0x2010

/-- U+2011 non-breaking hyphen. -/
def nbHyphen : Char := Char.ofNat 0x2011

/-- U+2012 figure dash. -/
def figDash : Char := Char.ofNat 0x2012

/-- U+2015 horizontal bar. -/
def horizBar : Char := Char.ofNat 0x2015

/-- U+2026 horizontal ellipsis. -/
def hellip : Char := Char.ofNat 0x2026

/-- The literal pattern actually replaced by the line
`text = text.replace(''', "'").replace(''', "'")` of the source: the
quotes there are plain ASCII, so Python lexes a triple-quoted string and
the whole line is one call replacing this 15-character text with `'`. -/
def weirdPat : Str :=
  [',', ' ', '"', '\'', '"', ')', '.', 'r', 'e', 'p', 'l', 'a', 'c', 'e', '(']

/-- `sanitize_text` of `src/markdown_to_pdf.py` lines 8-30, replacement by
replacement in source order.  The two `replace('"','"')` calls of line 24 are
identity replacements (the characters in the file are ASCII quotes), and
line 25 lexes as a single replace of `weirdPat` by `'` (see `weirdPat`). -/
def sanitize_text (l : Str) : Str :=
  pyReplace [hellip] ['.', '.', '.']
    (pyReplace weirdPat ['\'']
      (pyReplace ['"'] ['"']
        (pyReplace ['"'] ['"']
          (pyReplace [horizBar] ['-']
            (pyReplace [figDash] ['-']
              (pyReplace [nbHyphen] ['-']
                (pyReplace [uniHyphen] ['-']
                  (pyReplace [minusSign] ['-']
                    (pyReplace [enDash] ['-']
                      (pyReplace [emDash] ['-'] l))))))))))

/-- Character-by-character expansion: the normal form of a one-character
`pyReplace`. -/
def charExpand (g : Char → Str) : Str → Str
  | [] => []
  | c :: cs => g c ++ charExpand g cs

/-- The greedy word-accumulation loop that appears (inlined) at every wrap
site of both source files: `cur` is `current_line`, the returned list is
`wrapped_lines`.  A word is appended when the measured width of the joined
candidate is within `maxw`; otherwise the accumulation (if non-empty) is
committed and the word starts a fresh accumulation. -/
def wrapGo (mw : Str → ℚ) (maxw : ℚ) : List Str → List Str → List Str
  | cur, [] => if cur = [] then [] else [joinSp cur]
  | cur, w :: ws =>
    if mw (joinSp (cur ++ [w])) ≤ maxw then wrapGo mw maxw (cur ++ [w]) ws
    else if cur = [] then wrapGo mw maxw [w] ws
    else joinSp cur :: wrapGo mw maxw [w] ws

/-- A complete wrap site: split the text into words, run the greedy loop, and
fall back to `[text]` when no line was produced
(`wrapped_lines if wrapped_lines else [text]`). -/
def wrapText (mw : Str → ℚ) (maxw : ℚ) (text : Str) : List Str :=
  match wrapGo mw maxw [] (pySplit text) with
  | [] => [text]
  | l :: ls => l :: ls

/-- The four reportlab font names used by the sources. -/
inductive PFont
  | helvetica
  | helveticaBold
  | helveticaOblique
  | courier
deriving DecidableEq

/-- Drawing commands issued to the reportlab canvas. -/
inductive Cmd
  | setFont (f : PFont) (size : ℚ)
  | drawCentredString (x y : ℚ) (t : Str)
  | drawString (x y : ℚ) (t : Str)
  | rect (x y w h : ℚ)
  | line (x0 y0 x1 y1 : ℚ)
  | setLineWidth (w : ℚ)
  | showPage
  | save
deriving DecidableEq

/-- A drawing command annotated with the value of the cursor `y_position`
at the moment the command is issued. -/
abbrev ACmd := Cmd × ℚ

/-- Abstract width measurement, standing for `pdf.stringWidth(text, font, size)`. -/
abbrev WidthFn := Str → PFont → ℚ → ℚ

/-- Result of one step of the inline-formatting scan at position `j`. -/
inductive IRes
  | styled (f : PFont) (chunk : Str) (nextJ : Nat)
  | plain (chunk : Str) (nextJ : Nat)
  | skip (nextJ : Nat)

/-- The inner `while k < len and wrap_line[k] not in ['*','`']` scan:
first position at or after `j` holding a delimiter character. -/
def scanPlain (ln : Str) (j : Nat) : Nat :=
  j + ((ln.drop j).takeWhile (fun c => !(c == '*' || c == '`'))).length

/-- Fall-through of the scan: emit a plain chunk up to the next delimiter,
or skip one character when the current one is an unmatched delimiter. -/
def classifyPlain (ln : Str) (j : Nat) : IRes :=
  let k := scanPlain ln j
  if j < k then .plain (slice ln j k) k else .skip (j+1)

/-- The `` ` `` branch of the scan. -/
def classifyCode (ln : Str) (j : Nat) : IRes :=
  if ln[j]? = some '`' then
    match pyFind ln ['`'] (j+1) with
    | some e => .styled .courier (slice ln (j+1) e) (e+1)
    | none => classifyPlain ln j
  else classifyPlain ln j

/-- The single `*` branch of the scan. -/
def classifyItalic (ln : Str) (j : Nat) : IRes :=
  if ln[j]? = some '*' then
    match pyFind ln ['*'] (j+1) with
    | some e => .styled .helveticaOblique (slice ln (j+1) e) (e+1)
    | none => classifyCode ln j
  else classifyCode ln j

/-- Decision taken by the inline-formatting loop at position `j`: `**` bold,
then `*` italic, then `` ` `` code, each falling through when the closing
delimiter is missing, then the plain-text scan. -/
def classifyInline (ln : Str) (j : Nat) : IRes :=
  if slice ln j (j+2) = ['*', '*'] then
    match pyFind ln ['*', '*'] (j+2) with
    | some e => .styled .helveticaBold (slice ln (j+2) e) (e+2)
    | none => classifyItalic ln j
  else classifyItalic ln j

/-- The inline-formatting loop (`while j < len(wrap_line): ...`) of the
sources: draws styled chunks, advancing the pen `x` by the measured width of
each chunk in its own font.  `yd` is the y coordinate passed to `drawString`,
`yAnn` the cursor value used for trace annotation.  `fuel` bounds the number
of iterations; the scan advances at least one position per iteration, so
`ln.length + 1` is always sufficient. -/
def inlineGo (W : WidthFn) (base : PFont) (size yd yAnn : ℚ) (ln : Str) :
    Nat → Nat → ℚ → List ACmd
  | 0, _, _ => []
  | fuel+1, j, x =>
    if j < ln.length then
      match classifyInline ln j with
      | .styled f chunk nj =>
        (Cmd.setFont f size, yAnn) :: (Cmd.drawString x yd chunk, yAnn) ::
          inlineGo W base size yd yAnn ln fuel nj (x + W chunk f size)
      | .plain chunk nj =>
        (Cmd.setFont base size, yAnn) :: (Cmd.drawString x yd chunk, yAnn) ::
          inlineGo W base size yd yAnn ln fuel nj (x + W chunk base size)
      | .skip nj => inlineGo W base size yd yAnn ln fuel nj x
    else []

/-- One full inline-formatting pass over a wrapped line, starting at pen
position `x`. -/
def inlineDraw (W : WidthFn) (base : PFont) (size yd yAnn : ℚ) (ln : Str)
    (x : ℚ) : List ACmd :=
  inlineGo W base size yd yAnn ln (ln.length + 1) 0 x

/-- Page-break commands of the `if y_position < 72: pdf.showPage()` checks. -/
def pageBrk (y : ℚ) : List ACmd := if y < 72 then [(Cmd.showPage, y)] else []

/-- Cursor after the page check: reset to `height - 72 = 720` on a break. -/
def pageY (y : ℚ) : ℚ := if y < 72 then 720 else y

/-- The draw loop shared by the heading and block-quote branches: per wrapped
line, page check, `setFont`, raw `drawString` at `x`, cursor drop by `dec`. -/
def rawWrapLoop (f : PFont) (size x dec : ℚ) : List Str → ℚ → List ACmd × ℚ
  | [], y => ([], y)
  | wl :: rest, y =>
    let r := rawWrapLoop f size x dec rest (pageY y - dec)
    (pageBrk y ++ (Cmd.setFont f size, pageY y) ::
       (Cmd.drawString x (pageY y) wl, pageY y) :: r.1, r.2)

/-- The draw loop shared by the bullet, numbered-list and paragraph branches:
per wrapped line, page check, marker glyph on the first line only, then
inline-formatted text starting at `startX`, cursor drop by `line_height`. -/
def inlineWrapLoop (W : WidthFn) (marker : Option Str) (startX : ℚ) :
    List Str → ℚ → List ACmd × ℚ
  | [], y => ([], y)
  | wl :: rest, y =>
    let y1 := pageY y
    let mk : List ACmd := match marker with
      | some m => [(Cmd.setFont .helvetica 11, y1), (Cmd.drawString 82 y1 m, y1)]
      | none => []
    let r := inlineWrapLoop W none startX rest (y1 - 14)
    (pageBrk y ++ mk ++ inlineDraw W .helvetica 11 y1 y1 wl startX ++ r.1, r.2)

/-- Table-row cell parsing of both sources:
`[cell.strip() for cell in line.split('|') if cell.strip()]`. -/
def parseCells (line : Str) : List Str :=
  ((splitOnChar '|' line).map pyStrip).filter (fun c => c ≠ [])

/-- Cell wrapping of `markdown_to_pdf.py` tables: sanitize the cell, wrap at
`col_width - 4` in the given font at size 10, falling back to the (sanitized)
cell itself. -/
def cellWrapsMd (W : WidthFn) (f : PFont) (colw : ℚ) (cell : Str) : List Str :=
  wrapText (fun s => W s f 10) (colw - 4) (sanitize_text cell)

/-- `max_header_lines` / `max_row_lines`: maximum wrapped-line count over the
row's cells, starting from 1. -/
def maxRowLines (wrapped : List (List Str)) : ℕ :=
  wrapped.foldl (fun m wls => max m wls.length) 1

/-- Draw the wrapped lines of one `markdown_to_pdf.py` table cell,
inline-formatted, the `wrap_idx`-th line at `yTop - 10 - wrap_idx*10`. -/
def drawCellText (W : WidthFn) (base : PFont) (xPos yTop yAnn : ℚ) :
    ℕ → List Str → List ACmd
  | _, [] => []
  | wi, wl :: rest =>
    inlineDraw W base 10 (yTop - 10 - (wi : ℚ) * 10) yAnn wl (xPos + 2) ++
      drawCellText W base xPos yTop yAnn (wi+1) rest

/-- Draw one `markdown_to_pdf.py` table row (header or data): per cell a
bordered rect of the shared dynamic height `rh`, then the cell text. -/
def drawMdCells (W : WidthFn) (base : PFont) (y colw rh : ℚ) :
    ℕ → List (List Str) → List ACmd
  | _, [] => []
  | ci, wls :: rest =>
    (Cmd.rect (72 + (ci : ℚ) * colw) (y - rh + 3) colw rh, y) ::
      (drawCellText W base (72 + (ci : ℚ) * colw) y y 0 wls ++
        drawMdCells W base y colw rh (ci+1) rest)

/-- The data-row loop of `markdown_to_pdf.py` tables: page check (`y < 72`
only), dynamic row height from wrapped content, bordered cells, cursor drop
by the row height. -/
def mdRows (W : WidthFn) (colw : ℚ) (ncols : ℕ) :
    List (List Str) → ℚ → List ACmd × ℚ
  | [], y => ([], y)
  | row :: rest, y =>
    let y1 := pageY y
    let wrapped := (row.take ncols).map (cellWrapsMd W .helvetica colw)
    let rh : ℚ := (maxRowLines wrapped : ℚ) * 10 + 5
    let r := mdRows W colw ncols rest (y1 - rh)
    (pageBrk y ++ drawMdCells W .helvetica y1 colw rh 0 wrapped ++ r.1, r.2)

/-- The whole table branch of `markdown_to_pdf.py` (lines 81-256) given the
collected pipe lines: with fewer than 2 lines nothing is drawn; a header that
parses to zero cells makes `max_width / num_cols` raise `ZeroDivisionError`,
modelled as `none`. -/
def mdTable (W : WidthFn) (tls : List Str) (y : ℚ) : Option (List ACmd × ℚ) :=
  if 2 ≤ tls.length then
    match tls with
    | [] => some ([], y)
    | hline :: _ =>
      let header := parseCells hline
      if header.length = 0 then none
      else
        let colw : ℚ := 468 / (header.length : ℚ)
        let headerWrapped := header.map (cellWrapsMd W .helveticaBold colw)
        let hh : ℚ := (maxRowLines headerWrapped : ℚ) * 10 + 5
        let dataRows := ((tls.drop 2).map parseCells).filter (fun r => r ≠ [])
        let rows := mdRows W colw header.length dataRows (y - hh)
        some ((Cmd.setFont .helveticaBold 10, y) ::
                (drawMdCells W .helveticaBold y colw hh 0 headerWrapped ++
                  (Cmd.setFont .helvetica 10, y - hh) :: rows.1),
              rows.2 - 14)
  else some ([], y)

/-- Cell wrapping of `filehandle.py` tables: no sanitization, wrap at
`col_width - 4` in the given font at size 10, falling back to the cell. -/
def fhCellLines (W : WidthFn) (f : PFont) (colw : ℚ) (cell : Str) : List Str :=
  wrapText (fun s => W s f 10) (colw - 4) cell

/-- Draw the wrapped lines of one `filehandle.py` table cell as raw strings
(no inline formatting). -/
def fhDrawWls (xPos y : ℚ) : ℕ → List Str → List ACmd
  | _, [] => []
  | wi, wl :: rest =>
    (Cmd.drawString (xPos + 2) (y - 10 - (wi : ℚ) * 10) wl, y) ::
      fhDrawWls xPos y (wi+1) rest

/-- `filehandle.py` header cells: fixed-size rect `(x, y-12, colw, 15)` per
cell, then the cell's wrapped lines. -/
def fhHeaderCells (W : WidthFn) (y colw : ℚ) : ℕ → List Str → List ACmd
  | _, [] => []
  | ci, cell :: rest =>
    (Cmd.rect (72 + (ci : ℚ) * colw) (y - 12) colw 15, y) ::
      (fhDrawWls (72 + (ci : ℚ) * colw) y 0 (fhCellLines W .helveticaBold colw cell) ++
        fhHeaderCells W y colw (ci+1) rest)

/-- `filehandle.py` data-row cells: rect `(x, y-row_height, colw, row_height+3)`
with `row_height = 12`, then the cell's wrapped lines. -/
def fhRowCells (W : WidthFn) (y colw : ℚ) : ℕ → List Str → List ACmd
  | _, [] => []
  | ci, cell :: rest =>
    (Cmd.rect (72 + (ci : ℚ) * colw) (y - 12) colw 15, y) ::
      (fhDrawWls (72 + (ci : ℚ) * colw) y 0 (fhCellLines W .helvetica colw cell) ++
        fhRowCells W y colw (ci+1) rest)

/-- The data-row loop of `filehandle.py` tables: page check, fixed height,
cursor drop by `row_height + 3 = 15`. -/
def fhRows (W : WidthFn) (colw : ℚ) (ncols : ℕ) :
    List (List Str) → ℚ → List ACmd × ℚ
  | [], y => ([], y)
  | row :: rest, y =>
    let y1 := pageY y
    let r := fhRows W colw ncols rest (y1 - 15)
    (pageBrk y ++ fhRowCells W y1 colw 0 (row.take ncols) ++ r.1, r.2)

/-- The whole table branch of `filehandle.py` (lines 57-130), with the same
`ZeroDivisionError` possibility as `mdTable`. -/
def fhTable (W : WidthFn) (tls : List Str) (y : ℚ) : Option (List ACmd × ℚ) :=
  if 2 ≤ tls.length then
    match tls with
    | [] => some ([], y)
    | hline :: _ =>
      let header := parseCells hline
      if header.length = 0 then none
      else
        let colw : ℚ := 468 / (header.length : ℚ)
        let dataRows := ((tls.drop 2).map parseCells).filter (fun r => r ≠ [])
        let rows := fhRows W colw header.length dataRows (y - 15)
        some ((Cmd.setFont .helveticaBold 10, y) ::
                (fhHeaderCells W y colw 0 header ++
                  (Cmd.setFont .helvetica 10, y - 15) :: rows.1),
              rows.2 - 14)
  else some ([], y)

/-- `stripped.startswith('### ')`. -/
def isH3 (s : Str) : Bool := List.isPrefixOf ['#', '#', '#', ' '] s

/-- `stripped.startswith('## ')`. -/
def isH2 (s : Str) : Bool := List.isPrefixOf ['#', '#', ' '] s

/-- `stripped.startswith('# ')`. -/
def isH1 (s : Str) : Bool := List.isPrefixOf ['#', ' '] s

/-- `stripped.startswith('- ') or stripped.startswith('* ')`. -/
def isBullet (s : Str) : Bool :=
  List.isPrefixOf ['-', ' '] s || List.isPrefixOf ['*', ' '] s

/-- `stripped.startswith('> ')`. -/
def isQuote (s : Str) : Bool := List.isPrefixOf ['>', ' '] s

/-- The horizontal-rule test `re.match(r'^[-_*]{3,}$', stripped)`. -/
def isHRuleLine (s : Str) : Bool :=
  decide (3 ≤ s.length) && s.all (fun c => c == '-' || c == '_' || c == '*')

/-- The table-entry test `'|' in stripped and stripped.startswith('|')`. -/
def tableStart (s : Str) : Bool :=
  s.any (fun c => c == '|') && List.isPrefixOf ['|'] s

/-- The numbered-list test `re.match(r'^\d+\.\s', stripped)`. -/
def isNumLine (s : Str) : Bool :=
  let ds := s.takeWhile (fun c => c.isDigit)
  !ds.isEmpty &&
    (match s.drop ds.length with
     | '.' :: c :: _ => isPySpace c
     | _ => false)

/-- The capture `re.match(r'^(\d+\.)\s(.+)', stripped)`: the numeral with its
dot, and the non-empty text after the single whitespace character. -/
def numParse (s : Str) : Option (Str × Str) :=
  let ds := s.takeWhile (fun c => c.isDigit)
  if ds = [] then none
  else
    match s.drop ds.length with
    | '.' :: c :: t => if isPySpace c && !t.isEmpty then some (ds ++ ['.'], t) else none
    | _ => none

/-- Heading branch body (`###`/`##`/`#`): wrap at the full content width 468
in Helvetica-Bold at `size`, then the raw draw loop with cursor drop `dec`. -/
def headingBody (W : WidthFn) (size dec : ℚ) (text : Str) (y : ℚ) :
    List ACmd × ℚ :=
  rawWrapLoop .helveticaBold size 72 dec
    (wrapText (fun s => W s .helveticaBold size) 468 text) y

/-- Block-quote branch body: wrap at `468 - 20` in Helvetica-Oblique 11, raw
draw loop indented to `72 + 20`. -/
def quoteBody (W : WidthFn) (text : Str) (y : ℚ) : List ACmd × ℚ :=
  rawWrapLoop .helveticaOblique 11 92 14
    (wrapText (fun s => W s .helveticaOblique 11) 448 text) y

/-- Bullet / numbered-list branch body: wrap at `468 - 25` in Helvetica 11,
marker glyph at `72 + 10` on the first wrapped line, text at `72 + 25`. -/
def listBody (W : WidthFn) (marker : Option Str) (text : Str) (y : ℚ) :
    List ACmd × ℚ :=
  inlineWrapLoop W marker 97 (wrapText (fun s => W s .helvetica 11) 443 text) y

/-- Paragraph branch body: wrap at the full width 468 in Helvetica 11,
inline-formatted text at the left margin. -/
def paraBody (W : WidthFn) (text : Str) (y : ℚ) : List ACmd × ℚ :=
  inlineWrapLoop W none 72 (wrapText (fun s => W s .helvetica 11) 468 text) y

/-- The non-table, non-rule branch cascade of `markdown_to_pdf.py` for one
stripped line `s`: quote, headings, bullet, numbered item, blank line,
paragraph — every text sanitized before wrapping. -/
def mdBody (W : WidthFn) (s : Str) (y0 : ℚ) : List ACmd × ℚ :=
  if isQuote s then quoteBody W (sanitize_text (s.drop 2)) y0
  else if isH3 s then headingBody W 11 14 (sanitize_text (s.drop 4)) y0
  else if isH2 s then headingBody W 13 16 (sanitize_text (s.drop 3)) y0
  else if isH1 s then headingBody W 15 18 (sanitize_text (s.drop 2)) y0
  else if isBullet s then listBody W (some ['•']) (sanitize_text (s.drop 2)) y0
  else if isNumLine s then
    match numParse s with
    | some (num, t) => listBody W (some num) (sanitize_text t) y0
    | none => ([], y0)
  else if s = [] then ([], y0 - 7)
  else paraBody W (sanitize_text s) y0

/-- The non-table branch cascade of `filehandle.py` for one stripped line:
no quote branch, no sanitization, and the mojibake bullet marker. -/
def fhBody (W : WidthFn) (s : Str) (y0 : ℚ) : List ACmd × ℚ :=
  if isH3 s then headingBody W 11 14 (s.drop 4) y0
  else if isH2 s then headingBody W 13 16 (s.drop 3) y0
  else if isH1 s then headingBody W 15 18 (s.drop 2) y0
  else if isBullet s then listBody W (some ['â', '€', '¢']) (s.drop 2) y0
  else if isNumLine s then
    match numParse s with
    | some (num, t) => listBody W (some num) t y0
    | none => ([], y0)
  else if s = [] then ([], y0 - 7)
  else paraBody W s y0

/-- The main `while i < len(lines)` loop of `markdown_to_pdf.py`, structurally
recursive on a fuel counter.  Every iteration consumes at least one line, so
`lines.length + 1` fuel is always sufficient.  The result is `none` exactly
when a `ZeroDivisionError` is raised by a table block. -/
def mdProcF (W : WidthFn) : Nat → List Str → ℚ → Option (List ACmd × ℚ)
  | 0, _, y => some ([], y)
  | _+1, [], y => some ([], y)
  | fuel+1, line :: rest, y =>
    let y0 := pageY y
    let s := pyStrip line
    if tableStart s then
      let tls := (line :: rest).takeWhile (fun l => l.any (fun c => c == '|'))
      let rest1 := (line :: rest).dropWhile (fun l => l.any (fun c => c == '|'))
      match mdTable W tls y0 with
      | none => none
      | some (tc, y1) =>
        match mdProcF W fuel rest1 y1 with
        | none => none
        | some (cs, y2) => some (pageBrk y ++ tc ++ cs, y2)
    else if isHRuleLine s then
      match mdProcF W fuel rest (pageY y0 - 14) with
      | none => none
      | some (cs, y2) =>
        some (pageBrk y ++ pageBrk y0 ++
          (Cmd.setLineWidth 1, pageY y0) ::
          (Cmd.line 72 (pageY y0) 540 (pageY y0), pageY y0) :: cs, y2)
    else
      match mdProcF W fuel rest (mdBody W s y0).2 with
      | none => none
      | some (cs, y2) => some (pageBrk y ++ (mdBody W s y0).1 ++ cs, y2)

/-- The content loop of `markdown_to_pdf.py` with sufficient fuel, starting
from the cursor position after the title block. -/
def mdProc (W : WidthFn) (lines : List Str) (y : ℚ) : Option (List ACmd × ℚ) :=
  mdProcF W (lines.length + 1) lines y

/-- `create_pdf_from_text` of `src/markdown_to_pdf.py`: title (sanitized)
centred at `(306, 712)`, content processed from `y_position = 672`, final
`showPage`/`save`.  `none` models an uncaught `ZeroDivisionError`. -/
def create_pdf_from_text (W : WidthFn) (title content : Str) :
    Option (List ACmd) :=
  match mdProc W (splitOnChar '\n' content) 672 with
  | none => none
  | some (cs, y) =>
    some ((Cmd.setFont .helveticaBold 18, 672) ::
      (Cmd.drawCentredString 306 712 (sanitize_text title), 672) ::
      (cs ++ [(Cmd.showPage, y), (Cmd.save, y)]))

/-- The main loop of `filehandle.py`: same structure as `mdProcF` but with no
horizontal-rule or block-quote branch, no sanitization, the mojibake bullet
marker, and the fixed-height table layout. -/
def fhProcF (W : WidthFn) : Nat → List Str → ℚ → Option (List ACmd × ℚ)
  | 0, _, y => some ([], y)
  | _+1, [], y => some ([], y)
  | fuel+1, line :: rest, y =>
    let y0 := pageY y
    let s := pyStrip line
    if tableStart s then
      let tls := (line :: rest).takeWhile (fun l => l.any (fun c => c == '|'))
      let rest1 := (line :: rest).dropWhile (fun l => l.any (fun c => c == '|'))
      match fhTable W tls y0 with
      | none => none
      | some (tc, y1) =>
        match fhProcF W fuel rest1 y1 with
        | none => none
        | some (cs, y2) => some (pageBrk y ++ tc ++ cs, y2)
    else
      match fhProcF W fuel rest (fhBody W s y0).2 with
      | none => none
      | some (cs, y2) => some (pageBrk y ++ (fhBody W s y0).1 ++ cs, y2)

/-- The content loop of `filehandle.py` with sufficient fuel. -/
def fhProc (W : WidthFn) (lines : List Str) (y : ℚ) : Option (List ACmd × ℚ) :=
  fhProcF W (lines.length + 1) lines y

/-- `create_pdf_from_text` of `src/filehandle.py`: identical entry and exit
sequence but the title is not sanitized. -/
def fh_create_pdf_from_text (W : WidthFn) (title content : Str) :
    Option (List ACmd) :=
  match fhProc W (splitOnChar '\n' content) 672 with
  | none => none
  | some (cs, y) =>
    some ((Cmd.setFont .helveticaBold 18, 672) ::
      (Cmd.drawCentredString 306 712 title, 672) ::
      (cs ++ [(Cmd.showPage, y), (Cmd.save, y)]))

/-- Success skeleton of `mdProcF`: `true` unless some table block of at least
two collected pipe lines has a header parsing to zero cells. -/
def mdGoodF : Nat → List Str → Bool
  | 0, _ => true
  | _+1, [] => true
  | fuel+1, line :: rest =>
    let s := pyStrip line
    if tableStart s then
      let tls := (line :: rest).takeWhile (fun l => l.any (fun c => c == '|'))
      let rest1 := (line :: rest).dropWhile (fun l => l.any (fun c => c == '|'))
      (!(decide (2 ≤ tls.length) && (parseCells (tls.headD [])).isEmpty)) &&
        mdGoodF fuel rest1
    else mdGoodF fuel rest

/-- `mdGoodF` with the fuel used by `mdProc`. -/
def mdGood (lines : List Str) : Bool := mdGoodF (lines.length + 1) lines

/-- The drawn units of claim C2: text lines, table-cell rects, rule lines. -/
def isDrawUnit : Cmd → Bool
  | .drawString _ _ _ => true
  | .rect _ _ _ _ => true
  | .line _ _ _ _ => true
  | _ => false

/-- The drawn text chunks of a command trace. -/
def drawnTexts (cs : List ACmd) : List Str :=
  cs.filterMap fun p =>
    match p.1 with
    | Cmd.drawString _ _ t => some t
    | _ => none

/-- Modelled from the claim wording of C6: drop an empty leading cell. -/
def dropHeadEmpty : List Str → List Str
  | [] => []
  | x :: xs => if x = [] then xs else x :: xs

/-- Modelled from the claim wording of C6: drop only the empty edge cells of
the split-and-trimmed row, keeping interior cells at their positions. -/
def dropEdgeEmpties (l : List Str) : List Str :=
  (dropHeadEmpty ((dropHeadEmpty l).reverse)).reverse

/-- The line shapes admitted by claim C9: ASCII characters only and, after
trimming, a heading, a numbered item, an empty line, or a paragraph with no
pipe, not starting like a bullet or quote, and not a horizontal rule. -/
def lineShapeOk (l : Str) : Bool :=
  l.all (fun c => decide (c.toNat < 128)) &&
    (let s := pyStrip l
     isH3 s || isH2 s || isH1 s || isNumLine s || s.isEmpty ||
       (!(s.any (fun c => c == '|')) && !(isBullet s) && !(isQuote s) &&
         !(isHRuleLine s)))

/-- Substring test: does `p` occur contiguously inside `l`? -/
def isSubstring (p : Str) : Str → Bool
  | [] => p.isEmpty
  | c :: cs => p.isPrefixOf (c :: cs) || isSubstring p cs

/-- Amended C9 line condition: the shape condition plus absence of the
literal text replaced by `sanitize_text` (see `weirdPat`). -/
def linePreB (l : Str) : Bool := lineShapeOk l && !(isSubstring weirdPat l)

/-- Width measure used for concrete witnesses: the character count. -/
def wq : WidthFn := fun s _ _ => (s.length : ℚ)

/-- Width measure used for the pagination counterexample: 200 per character. -/
def w2 : WidthFn := fun s _ _ => 200 * (s.length : ℚ)

/-- Character-count width measure for wrap-level statements. -/
def mwLen (s : Str) : ℚ := (s.length : ℚ)

/-- U+201C left smart double quote. -/
def lsmartDq : Char := Char.ofNat 0x201C

/-- U+201D right smart double quote. -/
def rsmartDq : Char := Char.ofNat 0x201D

/-- U+2018 left smart single quote. -/
def lsmartSq : Char := Char.ofNat 0x2018

/-- U+2019 right smart single quote. -/
def rsmartSq : Char := Char.ofNat 0x2019

/-- A table row whose interior cells are all non-empty. -/
def rowOk : Str := "| a | b |".toList

/-- A table row with an empty interior cell. -/
def rowBad : Str := "| a |  | b |".toList

/-- Three spaces: a text with no words. -/
def sp3 : Str := [' ', ' ', ' ']

/-- A line with a single unmatched asterisk. -/
def abLine : Str := ['a', '*', 'b']

/-- Content whose first table line parses to zero header cells. -/
def c1content : Str := ['|', '\n', '|']

/-- One level-1 heading line with its newline. -/
def hxLine : Str := ['#', ' ', 'x', '\n']

/-- A two-line table (header wrapping to two lines under `w2`, separator). -/
def c4tail : Str := "| a b |\n|---|".toList

/-- 33 headings (cursor 672 → 78) followed by a table whose header needs a
height of 25 while only 6 units remain above the bottom margin. -/
def c4content : Str := (List.replicate 33 hxLine).flatten ++ c4tail

/-- Content made only of lines admitted by claim C9. -/
def c9content : Str := "# Hi\n\n1. a\nplain".toList

/-- A single ASCII paragraph line equal to `weirdPat`: admitted by claim C9's
wording, but sanitized to `'` by `markdown_to_pdf.py` only. -/
def c9bad : Str := weirdPat

/-- An input on which `sanitize_text` is not idempotent: the single occurrence
of `weirdPat` is replaced by `'`, and the replacement splices the surrounding
text into a fresh occurrence of `weirdPat`. -/
def c10input : Str :=
  [',', ' ', '"'] ++ weirdPat ++
    ['"', ')', '.', 'r', 'e', 'p', 'l', 'a', 'c', 'e', '(']

/-- The full command trace of `create_pdf_from_text` under `wq` for title `t`
and content `hi`. -/
def tinyTrace : List ACmd :=
  [(Cmd.setFont .helveticaBold 18, 672),
   (Cmd.drawCentredString 306 712 ['t'], 672),
   (Cmd.setFont .helvetica 11, 672),
   (Cmd.drawString 72 672 ['h', 'i'], 672),
   (Cmd.showPage, 658),
   (Cmd.save, 658)]

section

attribute [local semireducible] Rat.add Rat.sub Rat.mul Rat.inv

/-! ## Word-wrap lemmas -/

lemma joinSp_single (w : Str) : joinSp [w] = w := rfl

lemma pySplitAux_clean :
    ∀ (l acc : Str), (∀ c ∈ acc, ¬ isPySpace c = true) →
      ∀ w ∈ pySplitAux acc l, w ≠ [] ∧ ∀ c ∈ w, ¬ isPySpace c = true := by
  intro l
  induction l with
  | nil =>
    intro acc hacc w hw
    simp only [pySplitAux] at hw
    split at hw
    · simp at hw
    · rename_i hne
      simp only [List.mem_singleton] at hw
      subst hw
      refine ⟨by simpa using hne, ?_⟩
      intro c hc
      exact hacc c (List.mem_reverse.mp hc)
  | cons c cs ih =>
    intro acc hacc w hw
    simp only [pySplitAux] at hw
    by_cases hc : isPySpace c = true
    · rw [if_pos hc] at hw
      by_cases ha : acc = []
      · rw [if_pos ha] at hw
        exact ih [] (by simp) w hw
      · rw [if_neg ha] at hw
        rcases List.mem_cons.mp hw with h | h
        · subst h
          refine ⟨by simpa using ha, ?_⟩
          intro x hx
          exact hacc x (List.mem_reverse.mp hx)
        · exact ih [] (by simp) w h
    · rw [if_neg hc] at hw
      refine ih (c :: acc) ?_ w hw
      intro x hx
      rcases List.mem_cons.mp hx with h | h
      · subst h; exact hc
      · exact hacc x h

lemma pySplitAux_word :
    ∀ (w : Str), (∀ c ∈ w, ¬ isPySpace c = true) →
      ∀ (acc tail : Str),
        pySplitAux acc (w ++ tail) = pySplitAux (w.reverse ++ acc) tail := by
  intro w
  induction w with
  | nil => intro _ acc tail; simp
  | cons c w2 ih =>
    intro hw acc tail
    have hc : ¬ isPySpace c = true := hw c (by simp)
    simp only [List.cons_append, List.append_eq, pySplitAux, if_neg hc]
    rw [ih (fun x hx => hw x (by simp [hx])) (c :: acc) tail]
    simp [List.append_assoc]

lemma pySplit_joinSp :
    ∀ (ws : List Str),
      (∀ w ∈ ws, w ≠ [] ∧ ∀ c ∈ w, ¬ isPySpace c = true) →
      pySplit (joinSp ws) = ws := by
  intro ws
  induction ws with
  | nil => intro _; rfl
  | cons w ws ih =>
    intro h
    have hw := h w (by simp)
    cases ws with
    | nil =>
      show pySplitAux [] (joinSp [w]) = [w]
      have hj : joinSp [w] = w := rfl
      rw [hj, ← List.append_nil w, pySplitAux_word w hw.2]
      simp only [pySplitAux, List.append_nil]
      rw [if_neg (by simpa using hw.1)]
      simp
    | cons w2 ws2 =>
      show pySplitAux [] (joinSp (w :: w2 :: ws2)) = w :: w2 :: ws2
      have hj : joinSp (w :: w2 :: ws2) = w ++ ' ' :: joinSp (w2 :: ws2) := rfl
      rw [hj, pySplitAux_word w hw.2]
      simp only [List.append_nil, pySplitAux]
      rw [if_pos (by decide : isPySpace ' ' = true),
        if_neg (by simpa using hw.1), List.reverse_reverse]
      congr 1
      exact ih (fun x hx => h x (by simp [hx]))

lemma wrapGo_flatten (mw : Str → ℚ) (maxw : ℚ) :
    ∀ (ws cur : List Str),
      (∀ w ∈ cur, w ≠ [] ∧ ∀ c ∈ w, ¬ isPySpace c = true) →
      (∀ w ∈ ws, w ≠ [] ∧ ∀ c ∈ w, ¬ isPySpace c = true) →
      ((wrapGo mw maxw cur ws).map pySplit).flatten = cur ++ ws := by
  intro ws
  induction ws with
  | nil =>
    intro cur hcur _
    simp only [wrapGo]
    split
    · rename_i h; simp [h]
    · simp only [List.map_cons, List.map_nil, List.flatten_cons, List.flatten_nil]
      rw [pySplit_joinSp cur hcur]
  | cons w ws ih =>
    intro cur hcur hws
    have hw := hws w (by simp)
    have hws2 : ∀ x ∈ ws, x ≠ [] ∧ ∀ c ∈ x, ¬ isPySpace c = true :=
      fun x hx => hws x (by simp [hx])
    have hcurw : ∀ x ∈ cur ++ [w], x ≠ [] ∧ ∀ c ∈ x, ¬ isPySpace c = true := by
      intro x hx
      rcases List.mem_append.mp hx with h | h
      · exact hcur x h
      · simp only [List.mem_singleton] at h; subst h; exact hw
    have hsing : ∀ x ∈ [w], x ≠ [] ∧ ∀ c ∈ x, ¬ isPySpace c = true := by
      intro x hx
      simp only [List.mem_singleton] at hx; subst hx; exact hw
    simp only [wrapGo]
    split
    · rw [ih (cur ++ [w]) hcurw hws2]
      simp
    · split
      · rename_i hcur0
        rw [ih [w] hsing hws2, hcur0]
        simp
      · simp only [List.map_cons, List.flatten_cons]
        rw [pySplit_joinSp cur hcur, ih [w] hsing hws2]
        simp

/-- C7: for every width measure, budget and input text, concatenating the
words of all produced wrapped lines, in order, reconstructs the
whitespace-split word sequence of the text exactly — the word-wrap step
drops, duplicates and reorders no word. -/
theorem wrap_preserves_words (mw : Str → ℚ) (maxw : ℚ) (t : Str) :
    ((wrapText mw maxw t).map pySplit).flatten = pySplit t := by
  have hclean := pySplitAux_clean t [] (by simp)
  have hfl := wrapGo_flatten mw maxw (pySplit t) [] (by simp) hclean
  simp only [List.nil_append] at hfl
  simp only [wrapText]
  split
  · simp
  · rename_i l ls hw
    rw [← hw, hfl]

lemma wrapGo_lines (mw : Str → ℚ) (maxw : ℚ) :
    ∀ (ws cur : List Str),
      (cur = [] ∨ mw (joinSp cur) ≤ maxw ∨ ∃ w, cur = [w]) →
      ∀ line ∈ wrapGo mw maxw cur ws,
        mw line ≤ maxw ∨ line ∈ ws ∨ ∃ w, cur = [w] ∧ line = w := by
  intro ws
  induction ws with
  | nil =>
    intro cur hcur line hline
    simp only [wrapGo] at hline
    split at hline
    · simp at hline
    · rename_i hne
      simp only [List.mem_singleton] at hline
      subst hline
      rcases hcur with h | h | ⟨w, h⟩
      · exact absurd h hne
      · exact Or.inl h
      · subst h
        exact Or.inr (Or.inr ⟨w, rfl, joinSp_single w⟩)
  | cons w ws ih =>
    intro cur hcur line hline
    simp only [wrapGo] at hline
    split at hline
    · rename_i hfit
      rcases ih (cur ++ [w]) (Or.inr (Or.inl hfit)) line hline with h | h | ⟨w2, hc, hl⟩
      · exact Or.inl h
      · exact Or.inr (Or.inl (by simp [h]))
      · have : cur = [] ∧ w = w2 := by
          rcases cur with _ | ⟨a, cur2⟩
          · refine ⟨rfl, ?_⟩
            simpa using hc
          · simp only [List.cons_append] at hc
            rcases List.cons_eq_cons.mp hc with ⟨rfl, hc2⟩
            exact absurd hc2 (by simp)
        subst hl
        exact Or.inr (Or.inl (by simp [this.2]))
    · split at hline
      · rcases ih [w] (Or.inr (Or.inr ⟨w, rfl⟩)) line hline with h | h | ⟨w2, hc, hl⟩
        · exact Or.inl h
        · exact Or.inr (Or.inl (by simp [h]))
        · subst hl
          rcases List.cons_eq_cons.mp hc with ⟨rfl, _⟩
          exact Or.inr (Or.inl (by simp))
      · rename_i hfit hcur0
        rcases List.mem_cons.mp hline with h | h
        · subst h
          rcases hcur with h | h | ⟨w2, h⟩
          · exact absurd h hcur0
          · exact Or.inl h
          · subst h
            exact Or.inr (Or.inr ⟨w2, rfl, rfl⟩)
        · rcases ih [w] (Or.inr (Or.inr ⟨w, rfl⟩)) line h with h2 | h2 | ⟨w2, hc, hl⟩
          · exact Or.inl h2
          · exact Or.inr (Or.inl (by simp [h2]))
          · subst hl
            rcases List.cons_eq_cons.mp hc with ⟨rfl, _⟩
            exact Or.inr (Or.inl (by simp))

/-- C3 (amended): the wrap step always produces at least one line, and every
produced line either fits the budget under the measure used to wrap it, or is
one of the input's unsplit words (the documented overflow case), or — the
case the original claim misses — the input has no words at all and the single
produced line is the raw input text (the `[text]` fallback). -/
theorem wrap_lines_fit (mw : Str → ℚ) (maxw : ℚ) (t : Str) :
    wrapText mw maxw t ≠ [] ∧
    ∀ line ∈ wrapText mw maxw t,
      mw line ≤ maxw ∨ line ∈ pySplit t ∨ (pySplit t = [] ∧ line = t) := by
  have hclean := pySplitAux_clean t [] (by simp)
  have hfl := wrapGo_flatten mw maxw (pySplit t) [] (by simp) hclean
  simp only [List.nil_append] at hfl
  simp only [wrapText]
  split
  · rename_i hw
    refine ⟨by simp, ?_⟩
    intro line hline
    simp only [List.mem_singleton] at hline
    subst hline
    rw [hw] at hfl
    simp only [List.map_nil, List.flatten_nil] at hfl
    exact Or.inr (Or.inr ⟨hfl.symm, rfl⟩)
  · rename_i l ls hw
    refine ⟨by simp, ?_⟩
    intro line hline
    rw [← hw] at hline
    rcases wrapGo_lines mw maxw (pySplit t) [] (Or.inl rfl) line hline with h | h | ⟨w, hc, _⟩
    · exact Or.inl h
    · exact Or.inr (Or.inl h)
    · exact absurd hc.symm (by simp)

/-- C3 counterexample: wrapping the three-space text at positive budget 1
under the character-count measure yields the fallback line made of the text
itself, which exceeds the budget and is not one of the text's words (there
are none) — the claimed disjunction fails for it. -/
theorem wrap_claim_counterexample :
    ¬ ∀ line ∈ wrapText mwLen 1 sp3, mwLen line ≤ 1 ∨ line ∈ pySplit sp3 := by
  decide

/-! ## Table-cell parsing (C6) -/

lemma filter_eq_dropEdge :
    ∀ (l : List Str), (∀ x ∈ (l.drop 1).dropLast, x ≠ []) →
      l.filter (fun c => c ≠ []) = dropEdgeEmpties l := by
  intro l
  rcases l with _ | ⟨x, xs⟩
  · intro _; rfl
  · rcases xs.eq_nil_or_concat with rfl | ⟨mid, z, rfl⟩
    · intro _
      by_cases hx : x = []
      · simp [dropEdgeEmpties, dropHeadEmpty, hx]
      · simp [dropEdgeEmpties, dropHeadEmpty, hx]
    · intro hmid
      have hm : ∀ a ∈ mid, a ≠ [] := by
        intro a ha
        refine hmid a ?_
        simpa [List.dropLast_concat] using ha
      have hfmid : mid.filter (fun c => c ≠ []) = mid := by
        rw [List.filter_eq_self]
        intro a ha
        simpa using hm a ha
      by_cases hx : x = [] <;> by_cases hz : z = [] <;>
        simp [dropEdgeEmpties, dropHeadEmpty, hx, hz, List.filter_append,
          hfmid, List.reverse_append] <;>
        exact hm

/-- C6 (amended): cell parsing drops every cell that is empty after trimming,
interior ones included; when every interior cell is non-empty this coincides
with the claimed behaviour of dropping only the empty edge cells that arise
from leading and trailing pipes. -/
theorem parseCells_dropEdge (line : Str)
    (h : ∀ x ∈ (((splitOnChar '|' line).map pyStrip).drop 1).dropLast, x ≠ []) :
    parseCells line = dropEdgeEmpties ((splitOnChar '|' line).map pyStrip) :=
  filter_eq_dropEdge _ h

/-- Witness for `parseCells_dropEdge` at the row with non-empty interior. -/
theorem parseCells_dropEdge_witness :
    parseCells rowOk = dropEdgeEmpties ((splitOnChar '|' rowOk).map pyStrip) :=
  parseCells_dropEdge rowOk (by decide)

/-- C6 counterexample: in a row with an interior cell that is empty after
trimming, the code also drops the interior cell, so the result differs from
the claimed drop-only-edge-cells parse which would keep it in its column. -/
theorem parseCells_counterexample :
    parseCells rowBad ≠ dropEdgeEmpties ((splitOnChar '|' rowBad).map pyStrip) ∧
    parseCells rowBad = [['a'], ['b']] := by
  constructor <;> decide

/-! ## Sanitizer lemmas (C8, C10) -/

lemma pyReplaceF_singleton (c : Char) (rep : Str) :
    ∀ (fuel : Nat) (l : Str), l.length ≤ fuel →
      pyReplaceF [c] rep fuel l =
        charExpand (fun x => if x = c then rep else [x]) l := by
  intro fuel
  induction fuel with
  | zero =>
    intro l hl
    rw [List.length_eq_zero.mp (Nat.le_zero.mp hl)]
    rfl
  | succ fuel ih =>
    intro l hl
    cases l with
    | nil => rfl
    | cons a as =>
      simp only [pyReplaceF, charExpand]
      by_cases hac : a = c
      · subst hac
        rw [if_pos (by simp [List.isPrefixOf]), if_pos rfl]
        simp only [List.length_cons, List.length_nil, List.drop_succ_cons,
          List.drop_zero]
        rw [ih as (by simpa using Nat.le_of_succ_le_succ hl)]
      · rw [if_neg (by simp [List.isPrefixOf, Ne.symm hac]), if_neg hac,
          ih as (by simpa using Nat.le_of_succ_le_succ hl)]
        rfl

lemma pyReplace_singleton (c : Char) (rep l : Str) :
    pyReplace [c] rep l = charExpand (fun x => if x = c then rep else [x]) l := by
  unfold pyReplace
  rw [if_neg (by simp)]
  exact pyReplaceF_singleton c rep l.length l le_rfl

lemma charExpand_congr_id (g : Char → Str) :
    ∀ (l : Str), (∀ c ∈ l, g c = [c]) → charExpand g l = l := by
  intro l
  induction l with
  | nil => intro _; rfl
  | cons a as ih =>
    intro h
    simp only [charExpand]
    rw [h a (by simp), ih (fun c hc => h c (by simp [hc]))]
    rfl

lemma mem_charExpand {x : Char} (g : Char → Str) :
    ∀ (l : Str), x ∈ charExpand g l → ∃ c ∈ l, x ∈ g c := by
  intro l
  induction l with
  | nil => intro h; simp [charExpand] at h
  | cons a as ih =>
    intro h
    rcases List.mem_append.mp h with h | h
    · exact ⟨a, by simp, h⟩
    · rcases ih h with ⟨c, hc, hx⟩
      exact ⟨c, by simp [hc], hx⟩

lemma pyReplace_singleton_noop (c : Char) (rep l : Str) (h : c ∉ l) :
    pyReplace [c] rep l = l := by
  rw [pyReplace_singleton]
  apply charExpand_congr_id
  intro x hx
  rw [if_neg]
  rintro rfl
  exact h hx

lemma pyReplace_same_noop (c : Char) (l : Str) : pyReplace [c] [c] l = l := by
  rw [pyReplace_singleton]
  apply charExpand_congr_id
  intro x _
  split
  · rename_i h; rw [h]
  · rfl

lemma not_mem_pyReplace_self {c : Char} {rep : Str} (l : Str) (hc : c ∉ rep) :
    c ∉ pyReplace [c] rep l := by
  rw [pyReplace_singleton]
  intro hmem
  rcases mem_charExpand _ l hmem with ⟨d, _, hx⟩
  by_cases hdc : d = c
  · rw [if_pos hdc] at hx
    exact hc hx
  · rw [if_neg hdc] at hx
    simp only [List.mem_singleton] at hx
    exact hdc hx.symm

lemma mem_pyReplaceF {x : Char} (pat rep : Str) :
    ∀ (fuel : Nat) (l : Str), x ∈ pyReplaceF pat rep fuel l → x ∈ l ∨ x ∈ rep := by
  intro fuel
  induction fuel with
  | zero => intro l h; exact Or.inl h
  | succ fuel ih =>
    intro l h
    cases l with
    | nil => simp [pyReplaceF] at h
    | cons a as =>
      simp only [pyReplaceF] at h
      split at h
      · rcases List.mem_append.mp h with h | h
        · exact Or.inr h
        · rcases ih _ h with h | h
          · exact Or.inl (List.mem_of_mem_drop h)
          · exact Or.inr h
      · rcases List.mem_cons.mp h with h | h
        · exact Or.inl (by simp [h])
        · rcases ih as h with h | h
          · exact Or.inl (by simp [h])
          · exact Or.inr h

lemma mem_pyReplace {x : Char} {pat rep l : Str} (h : x ∈ pyReplace pat rep l) :
    x ∈ l ∨ x ∈ rep := by
  unfold pyReplace at h
  split at h
  · exact Or.inl h
  · exact mem_pyReplaceF pat rep l.length l h

lemma pyReplaceF_noop_of_not_infix (pat rep : Str) (_hpat : ¬ pat = []) :
    ∀ l : Str, ¬ List.IsInfix pat l → pyReplaceF pat rep l.length l = l := by
  intro l
  induction l with
  | nil => intro _; rfl
  | cons a as ih =>
    intro h
    show pyReplaceF pat rep (as.length + 1) (a :: as) = a :: as
    simp only [pyReplaceF]
    rw [if_neg (fun hpre => h ((List.isPrefixOf_iff_prefix.mp hpre).isInfix)),
      ih (fun hinf => h (List.infix_cons hinf))]

lemma pyReplace_noop_of_not_infix (pat rep l : Str)
    (h : ¬ List.IsInfix pat l) : pyReplace pat rep l = l := by
  unfold pyReplace
  split
  · rfl
  · rename_i hne
    exact pyReplaceF_noop_of_not_infix pat rep hne l h

lemma sanitize_no_emDash (l : Str) : emDash ∉ sanitize_text l := by
  intro h
  simp only [sanitize_text] at h
  iterate 10 replace h := (mem_pyReplace h).resolve_right (by decide)
  exact not_mem_pyReplace_self l (by decide) h

lemma sanitize_no_enDash (l : Str) : enDash ∉ sanitize_text l := by
  intro h
  simp only [sanitize_text] at h
  iterate 9 replace h := (mem_pyReplace h).resolve_right (by decide)
  exact not_mem_pyReplace_self _ (by decide) h

lemma sanitize_no_minusSign (l : Str) : minusSign ∉ sanitize_text l := by
  intro h
  simp only [sanitize_text] at h
  iterate 8 replace h := (mem_pyReplace h).resolve_right (by decide)
  exact not_mem_pyReplace_self _ (by decide) h

lemma sanitize_no_uniHyphen (l : Str) : uniHyphen ∉ sanitize_text l := by
  intro h
  simp only [sanitize_text] at h
  iterate 7 replace h := (mem_pyReplace h).resolve_right (by decide)
  exact not_mem_pyReplace_self _ (by decide) h

lemma sanitize_no_nbHyphen (l : Str) : nbHyphen ∉ sanitize_text l := by
  intro h
  simp only [sanitize_text] at h
  iterate 6 replace h := (mem_pyReplace h).resolve_right (by decide)
  exact not_mem_pyReplace_self _ (by decide) h

lemma sanitize_no_figDash (l : Str) : figDash ∉ sanitize_text l := by
  intro h
  simp only [sanitize_text] at h
  iterate 5 replace h := (mem_pyReplace h).resolve_right (by decide)
  exact not_mem_pyReplace_self _ (by decide) h

lemma sanitize_no_horizBar (l : Str) : horizBar ∉ sanitize_text l := by
  intro h
  simp only [sanitize_text] at h
  iterate 4 replace h := (mem_pyReplace h).resolve_right (by decide)
  exact not_mem_pyReplace_self _ (by decide) h

lemma sanitize_no_hellip (l : Str) : hellip ∉ sanitize_text l := by
  intro h
  simp only [sanitize_text] at h
  exact not_mem_pyReplace_self _ (by decide) h

/-- C8 (code-bug evidence): `sanitize_text` leaves all four smart-quote
characters unchanged — the quote characters in the source's replace calls
are plain ASCII, so those calls replace nothing — while the dash
replacements do work (here the em dash becomes a hyphen).  The in-code
comment announces a smart-quote replacement that the code does not do. -/
theorem sanitize_smart_quotes_unchanged :
    sanitize_text [lsmartDq, rsmartDq, lsmartSq, rsmartSq, emDash] =
      [lsmartDq, rsmartDq, lsmartSq, rsmartSq, '-'] := by decide

/-- C10 (amended): `sanitize_text` is idempotent on every input whose
sanitized form does not contain the accidental literal pattern `weirdPat`
(the text between the mis-quoted delimiters of source line 25); the dash and
ellipsis characters never survive a first application and the quote
replacements are identities, so only that pattern can make a second
application act. -/
theorem sanitize_idempotent_of_no_weird (t : Str)
    (h : ¬ List.IsInfix weirdPat (sanitize_text t)) :
    sanitize_text (sanitize_text t) = sanitize_text t := by
  show pyReplace [hellip] ['.', '.', '.']
      (pyReplace weirdPat ['\'']
        (pyReplace ['"'] ['"']
          (pyReplace ['"'] ['"']
            (pyReplace [horizBar] ['-']
              (pyReplace [figDash] ['-']
                (pyReplace [nbHyphen] ['-']
                  (pyReplace [uniHyphen] ['-']
                    (pyReplace [minusSign] ['-']
                      (pyReplace [enDash] ['-']
                        (pyReplace [emDash] ['-'] (sanitize_text t))))))))))) =
      sanitize_text t
  rw [pyReplace_singleton_noop _ _ _ (sanitize_no_emDash t),
    pyReplace_singleton_noop _ _ _ (sanitize_no_enDash t),
    pyReplace_singleton_noop _ _ _ (sanitize_no_minusSign t),
    pyReplace_singleton_noop _ _ _ (sanitize_no_uniHyphen t),
    pyReplace_singleton_noop _ _ _ (sanitize_no_nbHyphen t),
    pyReplace_singleton_noop _ _ _ (sanitize_no_figDash t),
    pyReplace_singleton_noop _ _ _ (sanitize_no_horizBar t),
    pyReplace_same_noop, pyReplace_same_noop,
    pyReplace_noop_of_not_infix _ _ _ h,
    pyReplace_singleton_noop _ _ _ (sanitize_no_hellip t)]

/-- Witness for `sanitize_idempotent_of_no_weird` at the one-character text. -/
theorem sanitize_idempotent_witness :
    sanitize_text (sanitize_text ['a']) = sanitize_text ['a'] :=
  sanitize_idempotent_of_no_weird ['a']
    (fun hinf => absurd hinf.length_le (by decide))

/-- C10 counterexample: on `c10input` the single `weirdPat` occurrence is
replaced by a quote, and the replacement splices the surrounding characters
into a fresh `weirdPat` occurrence, so a second application changes the
result again — `sanitize_text` is not idempotent. -/
theorem sanitize_not_idempotent :
    sanitize_text (sanitize_text c10input) ≠ sanitize_text c10input := by decide

/-! ## Inline formatter: unmatched delimiters (C5) -/

lemma drop_of_getElem {ln : Str} {j : Nat} {c : Char}
    (h : ln[j]? = some c) :
    ln.drop j = c :: ln.drop (j+1) := by
  obtain ⟨hj, hc⟩ := List.getElem?_eq_some_iff.mp h
  rw [List.drop_eq_getElem_cons hj, hc]

lemma slice_pair {ln : Str} {j : Nat}
    (h : slice ln j (j+2) = ['*', '*']) :
    ln[j]? = some '*' ∧ ln[j+1]? = some '*' := by
  unfold slice at h
  have e2 : j + 2 - j = 2 := by omega
  rw [e2] at h
  have ht0 : ((ln.drop j).take 2)[0]? = some '*' := by rw [h]; rfl
  have ht1 : ((ln.drop j).take 2)[1]? = some '*' := by rw [h]; rfl
  rw [List.getElem?_take_of_lt (by omega), List.getElem?_drop] at ht0
  rw [List.getElem?_take_of_lt (by omega), List.getElem?_drop] at ht1
  exact ⟨ht0, ht1⟩

lemma pyFindAux_none_single (ln : Str) (c : Char) :
    ∀ (fuel start : Nat), (∀ k, start ≤ k → ln[k]? ≠ some c) →
      pyFindAux ln [c] start fuel = none := by
  intro fuel
  induction fuel with
  | zero => intro start _; rfl
  | succ fuel ih =>
    intro start h
    simp only [pyFindAux]
    split
    · rfl
    · rename_i hlen
      rw [if_neg ?pre]
      · exact ih (start+1) (fun k hk => h k (Nat.le_of_succ_le hk))
      case pre =>
        intro hpre
        obtain ⟨t, ht⟩ := List.isPrefixOf_iff_prefix.mp hpre
        refine h start le_rfl ?_
        have hg := List.getElem?_drop ln start 0
        rw [← ht] at hg
        simpa using hg.symm

lemma pyFind_none_single (ln : Str) (c : Char) (start : Nat)
    (h : ∀ k, start ≤ k → ln[k]? ≠ some c) :
    pyFind ln [c] start = none :=
  pyFindAux_none_single ln c (ln.length + 1) start h

lemma classify_skip (ln : Str) (j : Nat) (c : Char)
    (hc : ln[j]? = some c) (hd : c = '*' ∨ c = '`')
    (hno : ∀ k, j < k → ln[k]? ≠ some c) :
    classifyInline ln j = .skip (j+1) := by
  have hdrop : ln.drop j = c :: ln.drop (j+1) := drop_of_getElem hc
  have hfind : pyFind ln [c] (j+1) = none :=
    pyFind_none_single ln c (j+1) (fun k hk => hno k (by omega))
  have hpc : (!(c == '*' || c == '`')) = false := by
    rcases hd with rfl | rfl <;> rfl
  have hplain : classifyPlain ln j = .skip (j+1) := by
    unfold classifyPlain scanPlain
    rw [hdrop, List.takeWhile_cons, hpc]
    simp
  have hcode : classifyCode ln j = .skip (j+1) := by
    unfold classifyCode
    rcases hd with rfl | rfl
    · rw [if_neg (by rw [hc]; simp)]
      exact hplain
    · rw [if_pos hc, hfind]
      exact hplain
  have hital : classifyItalic ln j = .skip (j+1) := by
    unfold classifyItalic
    rcases hd with rfl | rfl
    · rw [if_pos hc, hfind]
      exact hcode
    · rw [if_neg (by rw [hc]; simp)]
      exact hcode
  unfold classifyInline
  rw [if_neg ?hslice]
  · exact hital
  case hslice =>
    intro hsl
    obtain ⟨h1, h2⟩ := slice_pair hsl
    rcases hd with rfl | rfl
    · exact hno (j+1) (by omega) h2
    · rw [hc] at h1
      simp at h1

/-- C5 (amended): when the scanner stands on an opening delimiter (`*` or
`` ` ``) that has no matching closing delimiter later in the ln, it does not
treat it as a formatting start and moves exactly one character forward — but
the delimiter is skipped entirely: nothing is drawn for it (it is not
rendered literally) and the pen position does not move. -/
theorem unmatched_delimiter_skipped (W : WidthFn) (base : PFont)
    (size yd yAnn : ℚ) (ln : Str) (fuel j : Nat) (x : ℚ) (c : Char)
    (hj : j < ln.length) (hc : ln[j]? = some c)
    (hd : c = '*' ∨ c = '`') (hno : ∀ k, j < k → ln[k]? ≠ some c) :
    inlineGo W base size yd yAnn ln (fuel+1) j x =
      inlineGo W base size yd yAnn ln fuel (j+1) x := by
  have hcl := classify_skip ln j c hc hd hno
  simp only [inlineGo, if_pos hj, hcl]

/-- Witness for `unmatched_delimiter_skipped` on the one-character line. -/
theorem unmatched_delimiter_skipped_witness :
    inlineGo wq .helvetica 11 0 0 ['*'] 2 0 72 =
      inlineGo wq .helvetica 11 0 0 ['*'] 1 1 72 :=
  unmatched_delimiter_skipped wq .helvetica 11 0 0 ['*'] 1 0 72 '*'
    (by decide) (by decide) (Or.inl rfl)
    (fun k hk => by cases k with
      | zero => omega
      | succ n => simp)

/-- C5 counterexample: in the line `a*b` the `*` at position 1 has no closing
delimiter; the claim says it is rendered literally in the base font, but the
drawn chunks are exactly `a` and `b` — the delimiter appears in no drawn
text. -/
theorem unmatched_delimiter_not_drawn :
    (drawnTexts (inlineDraw wq .helvetica 11 0 0 abLine 72)).flatten =
        ['a', 'b'] ∧
      '*' ∉ (drawnTexts (inlineDraw wq .helvetica 11 0 0 abLine 72)).flatten := by
  constructor <;> decide

/-! ## Error behaviour (C1) -/

lemma mdTable_none_iff (W : WidthFn) (tls : List Str) (y : ℚ) :
    mdTable W tls y = none ↔
      (2 ≤ tls.length ∧ parseCells (tls.headD []) = []) := by
  unfold mdTable
  split
  · rename_i hlen
    cases tls with
    | nil => simp at hlen
    | cons hline t =>
      simp only [List.headD_cons]
      split
      · rename_i hh
        exact ⟨fun _ => ⟨hlen, List.length_eq_zero.mp hh⟩, fun _ => rfl⟩
      · rename_i hh
        constructor
        · intro h; exact absurd h (by simp)
        · rintro ⟨-, hpc⟩
          exact absurd (by rw [hpc]; rfl : (parseCells hline).length = 0) hh
  · rename_i hlen
    simp [hlen]

lemma mdProcF_isSome (W : WidthFn) :
    ∀ (fuel : Nat) (lines : List Str) (y : ℚ),
      (mdProcF W fuel lines y).isSome = mdGoodF fuel lines := by
  intro fuel
  induction fuel with
  | zero => intro lines y; rfl
  | succ fuel ih =>
    intro lines y
    cases lines with
    | nil => rfl
    | cons line rest =>
      simp only [mdProcF, mdGoodF]
      by_cases ht : tableStart (pyStrip line) = true
      · rw [if_pos ht, if_pos ht]
        rcases hmt : mdTable W
            ((line :: rest).takeWhile (fun l => l.any (fun c => c == '|')))
            (pageY y) with _ | ⟨tc, y1⟩
        · rw [mdTable_none_iff] at hmt
          have hA : decide (2 ≤ ((line :: rest).takeWhile
              (fun l => l.any (fun c => c == '|'))).length) = true :=
            decide_eq_true hmt.1
          have hB : (parseCells (((line :: rest).takeWhile
              (fun l => l.any (fun c => c == '|'))).headD [])).isEmpty = true := by
            rw [hmt.2]; rfl
          rw [hA, hB]
          rfl
        · have hgood : (decide (2 ≤ ((line :: rest).takeWhile
                (fun l => l.any (fun c => c == '|'))).length) &&
              (parseCells (((line :: rest).takeWhile
                (fun l => l.any (fun c => c == '|'))).headD [])).isEmpty) = false := by
            by_contra hcon
            rw [Bool.not_eq_false, Bool.and_eq_true] at hcon
            obtain ⟨h1, h2⟩ := hcon
            have hnone := (mdTable_none_iff W _ (pageY y)).mpr
              ⟨of_decide_eq_true h1, List.isEmpty_iff.mp h2⟩
            rw [hmt] at hnone
            simp at hnone
          rw [hgood]
          simp only [Bool.not_false, Bool.true_and]
          rcases hrec : mdProcF W fuel
              ((line :: rest).dropWhile (fun l => l.any (fun c => c == '|'))) y1
            with _ | ⟨cs, y2⟩ <;>
            (have h2 := ih ((line :: rest).dropWhile
                (fun l => l.any (fun c => c == '|'))) y1;
             rw [hrec] at h2;
             simp [hrec, ← h2])
      · rw [if_neg ht, if_neg ht]
        by_cases hr : isHRuleLine (pyStrip line) = true
        · rw [if_pos hr]
          rcases hrec : mdProcF W fuel rest (pageY (pageY y) - 14) with _ | p <;>
            (have h2 := ih rest (pageY (pageY y) - 14);
             rw [hrec] at h2;
             simp [hrec, ← h2])
        · rw [if_neg hr]
          rcases hrec : mdProcF W fuel rest (mdBody W (pyStrip line) (pageY y)).2
            with _ | p <;>
            (have h2 := ih rest (mdBody W (pyStrip line) (pageY y)).2;
             rw [hrec] at h2;
             simp [hrec, ← h2])

/-- C1 (amended): the conversion returns a result exactly when no table block
of at least two collected pipe lines has a header that parses to zero cells;
every other input — however malformed its markdown — is classified, drawn and
returned, but such a table makes `max_width / num_cols` raise
`ZeroDivisionError`, which propagates out of the call. -/
theorem create_pdf_succeeds_iff (W : WidthFn) (title content : Str) :
    (create_pdf_from_text W title content).isSome =
      mdGood (splitOnChar '
' content) := by
  unfold create_pdf_from_text mdGood mdProc
  rw [← mdProcF_isSome W ((splitOnChar '
' content).length + 1)
    (splitOnChar '
' content) 672]
  rcases h : mdProcF W ((splitOnChar '
' content).length + 1)
    (splitOnChar '
' content) 672 with _ | p <;> simp [h]

/-- C1 counterexample: the two-line content made of two bare pipes is a
markdown table block whose header parses to zero cells, so the call raises
`ZeroDivisionError` (modelled as `none`) instead of returning bytes. -/
theorem create_pdf_raises : create_pdf_from_text wq ['t'] c1content = none := by
  decide

/-! ## Pagination invariant (C2, C4) -/

lemma pageY_ge (y : ℚ) : 72 ≤ pageY y := by
  unfold pageY
  split
  · norm_num
  · rename_i h; exact le_of_not_lt h

lemma pageBrk_mem {y : ℚ} {p : ACmd} (hp : p ∈ pageBrk y) :
    p = (Cmd.showPage, y) := by
  unfold pageBrk at hp
  split at hp
  · simpa using hp
  · simp at hp

lemma inlineGo_mem (W : WidthFn) (base : PFont) (size yd yAnn : ℚ) (ln : Str) :
    ∀ (fuel j : Nat) (x : ℚ) (p : ACmd),
      p ∈ inlineGo W base size yd yAnn ln fuel j x →
      p.2 = yAnn ∧ p.1 ≠ Cmd.showPage := by
  intro fuel
  induction fuel with
  | zero => intro j x p hp; simp [inlineGo] at hp
  | succ fuel ih =>
    intro j x p hp
    simp only [inlineGo] at hp
    split at hp
    · split at hp
      · rcases List.mem_cons.mp hp with rfl | hp
        · exact ⟨rfl, by simp⟩
        · rcases List.mem_cons.mp hp with rfl | hp
          · exact ⟨rfl, by simp⟩
          · exact ih _ _ p hp
      · rcases List.mem_cons.mp hp with rfl | hp
        · exact ⟨rfl, by simp⟩
        · rcases List.mem_cons.mp hp with rfl | hp
          · exact ⟨rfl, by simp⟩
          · exact ih _ _ p hp
      · exact ih _ _ p hp
    · simp at hp

lemma inlineDraw_mem {W : WidthFn} {base : PFont} {size yd yAnn : ℚ} {ln : Str}
    {x : ℚ} {p : ACmd} (hp : p ∈ inlineDraw W base size yd yAnn ln x) :
    p.2 = yAnn ∧ p.1 ≠ Cmd.showPage :=
  inlineGo_mem W base size yd yAnn ln _ _ _ p hp

lemma rawWrapLoop_draw (f : PFont) (size x dec : ℚ) :
    ∀ (wls : List Str) (y : ℚ) (p : ACmd),
      p ∈ (rawWrapLoop f size x dec wls y).1 →
      isDrawUnit p.1 = true → 72 ≤ p.2 := by
  intro wls
  induction wls with
  | nil => intro y p hp _; simp [rawWrapLoop] at hp
  | cons wl rest ih =>
    intro y p hp hd
    simp only [rawWrapLoop] at hp
    rcases List.mem_append.mp hp with hp | hp
    · rw [pageBrk_mem hp] at hd
      simp [isDrawUnit] at hd
    · rcases List.mem_cons.mp hp with rfl | hp
      · simp [isDrawUnit] at hd
      · rcases List.mem_cons.mp hp with rfl | hp
        · exact pageY_ge y
        · exact ih (pageY y - dec) p hp hd

lemma inlineWrapLoop_draw (W : WidthFn) :
    ∀ (wls : List Str) (marker : Option Str) (startX y : ℚ) (p : ACmd),
      p ∈ (inlineWrapLoop W marker startX wls y).1 →
      isDrawUnit p.1 = true → 72 ≤ p.2 := by
  intro wls
  induction wls with
  | nil => intro marker startX y p hp _; simp [inlineWrapLoop] at hp
  | cons wl rest ih =>
    intro marker startX y p hp hd
    simp only [inlineWrapLoop] at hp
    rcases List.mem_append.mp hp with hp | hp
    · rcases List.mem_append.mp hp with hp | hp
      · rcases List.mem_append.mp hp with hp | hp
        · rw [pageBrk_mem hp] at hd
          simp [isDrawUnit] at hd
        · split at hp
          · rcases List.mem_cons.mp hp with rfl | hp
            · simp [isDrawUnit] at hd
            · rcases List.mem_cons.mp hp with rfl | hp
              · exact pageY_ge y
              · simp at hp
          · simp at hp
      · rw [(inlineDraw_mem hp).1]
        exact pageY_ge y
    · exact ih none startX (pageY y - 14) p hp hd

lemma drawCellText_mem (W : WidthFn) (base : PFont) (xPos yTop yAnn : ℚ) :
    ∀ (wls : List Str) (wi : ℕ) (p : ACmd),
      p ∈ drawCellText W base xPos yTop yAnn wi wls →
      p.2 = yAnn ∧ p.1 ≠ Cmd.showPage := by
  intro wls
  induction wls with
  | nil => intro wi p hp; simp [drawCellText] at hp
  | cons wl rest ih =>
    intro wi p hp
    simp only [drawCellText] at hp
    rcases List.mem_append.mp hp with hp | hp
    · exact inlineDraw_mem hp
    · exact ih (wi+1) p hp

lemma drawMdCells_mem (W : WidthFn) (base : PFont) (y colw rh : ℚ) :
    ∀ (wrapped : List (List Str)) (ci : ℕ) (p : ACmd),
      p ∈ drawMdCells W base y colw rh ci wrapped →
      p.2 = y ∧ p.1 ≠ Cmd.showPage := by
  intro wrapped
  induction wrapped with
  | nil => intro ci p hp; simp [drawMdCells] at hp
  | cons wls rest ih =>
    intro ci p hp
    simp only [drawMdCells] at hp
    rcases List.mem_cons.mp hp with rfl | hp
    · exact ⟨rfl, by simp⟩
    · rcases List.mem_append.mp hp with hp | hp
      · exact drawCellText_mem W base _ y y _ 0 p hp
      · exact ih (ci+1) p hp

lemma mdRows_draw (W : WidthFn) (colw : ℚ) (ncols : ℕ) :
    ∀ (rows : List (List Str)) (y : ℚ) (p : ACmd),
      p ∈ (mdRows W colw ncols rows y).1 →
      isDrawUnit p.1 = true → 72 ≤ p.2 := by
  intro rows
  induction rows with
  | nil => intro y p hp _; simp [mdRows] at hp
  | cons row rest ih =>
    intro y p hp hd
    simp only [mdRows] at hp
    rcases List.mem_append.mp hp with hp | hp
    · rcases List.mem_append.mp hp with hp | hp
      · rw [pageBrk_mem hp] at hd
        simp [isDrawUnit] at hd
      · rw [(drawMdCells_mem W .helvetica (pageY y) colw _ _ 0 p hp).1]
        exact pageY_ge y
    · exact ih _ p hp hd

lemma mdTable_draw (W : WidthFn) (tls : List Str) (y : ℚ) (hy : 72 ≤ y)
    (r : List ACmd × ℚ) (hmt : mdTable W tls y = some r) :
    ∀ p ∈ r.1, isDrawUnit p.1 = true → 72 ≤ p.2 := by
  intro p hp hd
  cases tls with
  | nil =>
    simp only [mdTable] at hmt
    rw [if_neg (by simp)] at hmt
    cases hmt
    simp at hp
  | cons hline t =>
    simp only [mdTable] at hmt
    split at hmt
    · split at hmt
      · exact absurd hmt (by simp)
      · cases hmt
        rcases List.mem_cons.mp hp with rfl | hp
        · simp [isDrawUnit] at hd
        · rcases List.mem_append.mp hp with hp | hp
          · rw [(drawMdCells_mem W .helveticaBold y _ _ _ 0 p hp).1]
            exact hy
          · rcases List.mem_cons.mp hp with rfl | hp
            · simp [isDrawUnit] at hd
            · exact mdRows_draw W _ _ _ _ p hp hd
    · cases hmt
      simp at hp

lemma mdBody_draw (W : WidthFn) (s : Str) (y0 : ℚ) :
    ∀ p ∈ (mdBody W s y0).1, isDrawUnit p.1 = true → 72 ≤ p.2 := by
  intro p hp hd
  unfold mdBody quoteBody headingBody listBody paraBody at hp
  split at hp
  · exact rawWrapLoop_draw _ _ _ _ _ _ p hp hd
  · split at hp
    · exact rawWrapLoop_draw _ _ _ _ _ _ p hp hd
    · split at hp
      · exact rawWrapLoop_draw _ _ _ _ _ _ p hp hd
      · split at hp
        · exact rawWrapLoop_draw _ _ _ _ _ _ p hp hd
        · split at hp
          · exact inlineWrapLoop_draw W _ _ _ _ p hp hd
          · split at hp
            · split at hp
              · exact inlineWrapLoop_draw W _ _ _ _ p hp hd
              · simp at hp
            · split at hp
              · simp at hp
              · exact inlineWrapLoop_draw W _ _ _ _ p hp hd

lemma mdProcF_draw (W : WidthFn) :
    ∀ (fuel : Nat) (lines : List Str) (y : ℚ) (r : List ACmd × ℚ),
      mdProcF W fuel lines y = some r →
      ∀ p ∈ r.1, isDrawUnit p.1 = true → 72 ≤ p.2 := by
  intro fuel
  induction fuel with
  | zero =>
    intro lines y r h p hp _
    cases h
    simp at hp
  | succ fuel ih =>
    intro lines y r h p hp hd
    cases lines with
    | nil =>
      cases h
      simp at hp
    | cons line rest =>
      simp only [mdProcF] at h
      by_cases ht : tableStart (pyStrip line) = true
      · rw [if_pos ht] at h
        rcases hmt : mdTable W
            ((line :: rest).takeWhile (fun l => l.any (fun c => c == '|')))
            (pageY y) with _ | ⟨tc, y1⟩ <;> rw [hmt] at h
        · exact absurd h (by simp)
        · dsimp only at h
          rcases hrec : mdProcF W fuel
              ((line :: rest).dropWhile (fun l => l.any (fun c => c == '|'))) y1
            with _ | ⟨cs, y2⟩ <;> rw [hrec] at h
          · exact absurd h (by simp)
          · cases h
            rcases List.mem_append.mp hp with hp | hp
            · rcases List.mem_append.mp hp with hp | hp
              · rw [pageBrk_mem hp] at hd
                simp [isDrawUnit] at hd
              · exact mdTable_draw W _ _ (pageY_ge y) _ hmt p hp hd
            · exact ih _ _ _ hrec p hp hd
      · rw [if_neg ht] at h
        by_cases hr : isHRuleLine (pyStrip line) = true
        · rw [if_pos hr] at h
          rcases hrec : mdProcF W fuel rest (pageY (pageY y) - 14)
            with _ | ⟨cs, y2⟩ <;> rw [hrec] at h
          · exact absurd h (by simp)
          · cases h
            rcases List.mem_append.mp hp with hp | hp
            · rcases List.mem_append.mp hp with hp | hp
              · rw [pageBrk_mem hp] at hd
                simp [isDrawUnit] at hd
              · rw [pageBrk_mem hp] at hd
                simp [isDrawUnit] at hd
            · rcases List.mem_cons.mp hp with rfl | hp
              · simp [isDrawUnit] at hd
              · rcases List.mem_cons.mp hp with rfl | hp
                · exact pageY_ge (pageY y)
                · exact ih _ _ _ hrec p hp hd
        · rw [if_neg hr] at h
          rcases hrec : mdProcF W fuel rest (mdBody W (pyStrip line) (pageY y)).2
            with _ | ⟨cs, y2⟩ <;> rw [hrec] at h
          · exact absurd h (by simp)
          · cases h
            rcases List.mem_append.mp hp with hp | hp
            · rcases List.mem_append.mp hp with hp | hp
              · rw [pageBrk_mem hp] at hd
                simp [isDrawUnit] at hd
              · exact mdBody_draw W _ _ p hp hd
            · exact ih _ _ _ hrec p hp hd

/-- C2: in every successful conversion, each drawn unit — text line, table
cell rectangle, or horizontal rule — is emitted while the cursor
`y_position` is at or above the bottom margin of 72 units: the margin check
performed before every unit ensures that once the cursor falls below 72 a
page break happens before anything further is drawn. -/
theorem cursor_above_margin (W : WidthFn) (title content : Str)
    (T : List ACmd) (h : create_pdf_from_text W title content = some T) :
    ∀ p ∈ T, isDrawUnit p.1 = true → 72 ≤ p.2 := by
  intro p hp hd
  unfold create_pdf_from_text at h
  rcases hproc : mdProc W (splitOnChar '\n' content) 672 with _ | ⟨cs, y⟩ <;>
    rw [hproc] at h
  · exact absurd h (by simp)
  · cases h
    rcases List.mem_cons.mp hp with rfl | hp
    · simp [isDrawUnit] at hd
    · rcases List.mem_cons.mp hp with rfl | hp
      · simp [isDrawUnit] at hd
      · rcases List.mem_append.mp hp with hp | hp
        · exact mdProcF_draw W _ _ _ _ hproc p hp hd
        · rcases List.mem_cons.mp hp with rfl | hp
          · simp [isDrawUnit] at hd
          · rcases List.mem_cons.mp hp with rfl | hp
            · simp [isDrawUnit] at hd
            · simp at hp

/-- Witness for `cursor_above_margin`: the paragraph line of the tiny
document is drawn at cursor 672, which is above the margin. -/
theorem cursor_above_margin_witness : (72 : ℚ) ≤ 672 :=
  cursor_above_margin wq ['t'] ['h', 'i'] tinyTrace (by decide)
    (Cmd.drawString 72 672 ['h', 'i'], 672) (by decide) (by decide)

/-- C4 (amended): before each table data row the engine breaks the page
exactly when the cursor is already below the bottom margin — the row's
computed height is not consulted — and the whole row (bordered cells and
cell text) is then emitted at one single cursor position at or above the
margin, with no page break inside the row, so a row is never split across
pages but may extend below the bottom margin. -/
theorem table_row_page_break (W : WidthFn) (colw : ℚ) (ncols : ℕ)
    (row : List Str) (rest : List (List Str)) (y : ℚ) :
    ∃ rowTrace rh,
      (mdRows W colw ncols (row :: rest) y).1 =
        (if y < 72 then [(Cmd.showPage, y)] else []) ++ rowTrace ++
          (mdRows W colw ncols rest (pageY y - rh)).1 ∧
      (∀ p ∈ rowTrace, p.2 = pageY y ∧ p.1 ≠ Cmd.showPage) ∧
      72 ≤ pageY y := by
  refine ⟨drawMdCells W .helvetica (pageY y) colw
      ((maxRowLines ((row.take ncols).map (cellWrapsMd W .helvetica colw)) : ℚ)
        * 10 + 5) 0
      ((row.take ncols).map (cellWrapsMd W .helvetica colw)),
    (maxRowLines ((row.take ncols).map (cellWrapsMd W .helvetica colw)) : ℚ)
      * 10 + 5,
    ?_, ?_, pageY_ge y⟩
  · simp only [mdRows, pageBrk]
  · intro p hp
    exact drawMdCells_mem W .helvetica (pageY y) colw _ _ 0 p hp

/-- C4 counterexample: after 33 headings the cursor stands at 78; the table
header has computed height 25 (two wrapped lines) while only 6 units remain
above the bottom margin, yet no page break is inserted — the whole document
contains exactly one `showPage` (the final one) and the header rectangle of
height 25 is emitted at cursor 78. -/
theorem table_height_not_checked :
    (create_pdf_from_text w2 ['t'] c4content).isSome = true ∧
    (((create_pdf_from_text w2 ['t'] c4content).getD []).map
      Prod.fst).count Cmd.showPage = 1 ∧
    ((Cmd.rect 72 56 468 25, (78 : ℚ)) ∈
      (create_pdf_from_text w2 ['t'] c4content).getD []) ∧
    ¬ ((25 : ℚ) ≤ 78 - 72) := by
  refine ⟨by decide, by decide, by decide, by norm_num⟩

/-! ## Equivalence of the two variants (C9) -/

lemma isSubstring_iff (p : Str) :
    ∀ (l : Str), isSubstring p l = true ↔ List.IsInfix p l := by
  intro l
  induction l with
  | nil =>
    simp only [isSubstring]
    constructor
    · intro h
      obtain rfl : p = [] := List.isEmpty_iff.mp h
      exact ⟨[], [], rfl⟩
    · rintro ⟨s, t, hst⟩
      rcases List.append_eq_nil.mp hst with ⟨h1, -⟩
      rcases List.append_eq_nil.mp h1 with ⟨-, h2⟩
      simp [h2]
  | cons c cs ih =>
    simp only [isSubstring, Bool.or_eq_true, ih]
    constructor
    · rintro (h | h)
      · exact (List.isPrefixOf_iff_prefix.mp h).isInfix
      · exact List.infix_cons h
    · intro h
      obtain ⟨s, t, hst⟩ := h
      cases s with
      | nil =>
        exact Or.inl (List.isPrefixOf_iff_prefix.mpr ⟨t, by simpa using hst⟩)
      | cons a s2 =>
        right
        simp only [List.cons_append, List.cons.injEq] at hst
        exact ⟨s2, t, hst.2⟩

lemma pyStrip_infix_self (l : Str) : List.IsInfix (pyStrip l) l := by
  have h1 : List.IsSuffix (l.dropWhile isPySpace) l := List.dropWhile_suffix _
  obtain ⟨t, ht⟩ :=
    (List.dropWhile_suffix (l := (l.dropWhile isPySpace).reverse)
      (p := isPySpace))
  have hpre : List.IsPrefix (pyStrip l) (l.dropWhile isPySpace) := by
    refine ⟨t.reverse, ?_⟩
    have := congrArg List.reverse ht
    simpa [pyStrip, List.reverse_append] using this
  exact hpre.isInfix.trans h1.isInfix

lemma pyStrip_subset {l : Str} {c : Char} (hc : c ∈ pyStrip l) : c ∈ l :=
  (pyStrip_infix_self l).sublist.subset hc

lemma sanitize_id_of_clean (l : Str) (ha : ∀ c ∈ l, c.toNat < 128)
    (hw : ¬ List.IsInfix weirdPat l) : sanitize_text l = l := by
  have hnm : ∀ d : Char, 128 ≤ d.toNat → d ∉ l := fun d hd hmem =>
    absurd (ha d hmem) (by omega)
  show pyReplace [hellip] ['.', '.', '.']
      (pyReplace weirdPat ['\'']
        (pyReplace ['"'] ['"']
          (pyReplace ['"'] ['"']
            (pyReplace [horizBar] ['-']
              (pyReplace [figDash] ['-']
                (pyReplace [nbHyphen] ['-']
                  (pyReplace [uniHyphen] ['-']
                    (pyReplace [minusSign] ['-']
                      (pyReplace [enDash] ['-']
                        (pyReplace [emDash] ['-'] l)))))))))) = l
  rw [pyReplace_singleton_noop _ _ _ (hnm emDash (by decide)),
    pyReplace_singleton_noop _ _ _ (hnm enDash (by decide)),
    pyReplace_singleton_noop _ _ _ (hnm minusSign (by decide)),
    pyReplace_singleton_noop _ _ _ (hnm uniHyphen (by decide)),
    pyReplace_singleton_noop _ _ _ (hnm nbHyphen (by decide)),
    pyReplace_singleton_noop _ _ _ (hnm figDash (by decide)),
    pyReplace_singleton_noop _ _ _ (hnm horizBar (by decide)),
    pyReplace_same_noop, pyReplace_same_noop,
    pyReplace_noop_of_not_infix _ _ _ hw,
    pyReplace_singleton_noop _ _ _ (hnm hellip (by decide))]

lemma isNumLine_head {s : Str} (h : isNumLine s = true) :
    ∃ c t, s = c :: t ∧ c.isDigit = true := by
  cases s with
  | nil => simp [isNumLine] at h
  | cons c t =>
    by_cases hc : c.isDigit = true
    · exact ⟨c, t, rfl, hc⟩
    · rw [isNumLine] at h
      rw [List.takeWhile_cons] at h
      rw [Bool.eq_false_iff.mpr hc] at h
      simp at h

lemma numParse_drop {s num t : Str} (h : numParse s = some (num, t)) :
    ∃ k, t = s.drop k := by
  simp only [numParse] at h
  split at h
  · exact absurd h (by simp)
  · split at h
    · rename_i c t2 heq
      split at h
      · rename_i hcsp
        refine ⟨(s.takeWhile (fun c => c.isDigit)).length + 2, ?_⟩
        have h2 : (s.drop ((s.takeWhile (fun c => c.isDigit)).length)).drop 2 =
            s.drop ((s.takeWhile (fun c => c.isDigit)).length + 2) := by
          rw [List.drop_drop]
        rw [← h2, heq]
        cases h
        rfl
      · exact absurd h (by simp)
    · exact absurd h (by simp)

lemma shape_excl (s : Str)
    (h : isH3 s = true ∨ isH2 s = true ∨ isH1 s = true ∨ isNumLine s = true ∨
      s.isEmpty = true ∨
      ((!(s.any (fun c => c == '|')) && !(isBullet s) && !(isQuote s) &&
        !(isHRuleLine s)) = true)) :
    tableStart s = false ∧ isHRuleLine s = false ∧ isQuote s = false ∧
      isBullet s = false := by
  rcases h with h | h | h | h | h | h
  · obtain ⟨t, ht⟩ := List.isPrefixOf_iff_prefix.mp h
    subst ht
    simp [tableStart, isHRuleLine, isQuote, isBullet, List.isPrefixOf]
  · obtain ⟨t, ht⟩ := List.isPrefixOf_iff_prefix.mp h
    subst ht
    simp [tableStart, isHRuleLine, isQuote, isBullet, List.isPrefixOf]
  · obtain ⟨t, ht⟩ := List.isPrefixOf_iff_prefix.mp h
    subst ht
    simp [tableStart, isHRuleLine, isQuote, isBullet, List.isPrefixOf]
  · obtain ⟨c, t, rfl, hdig⟩ := isNumLine_head h
    have hne : ∀ d : Char, d.isDigit = false → (d == c) = false := by
      intro d hd
      rw [beq_eq_false_iff_ne]
      intro he
      subst he
      rw [hdig] at hd
      exact Bool.noConfusion hd
    have hne2 : ∀ d : Char, d.isDigit = false → (c == d) = false := by
      intro d hd
      rw [beq_eq_false_iff_ne]
      intro he
      rw [he] at hdig
      rw [hdig] at hd
      exact Bool.noConfusion hd
    refine ⟨?_, ?_, ?_, ?_⟩
    · simp [tableStart, List.isPrefixOf, hne '|' (by decide)]
    · simp [isHRuleLine, hne2 '-' (by decide), hne2 '_' (by decide),
        hne2 '*' (by decide)]
    · simp [isQuote, List.isPrefixOf, hne '>' (by decide)]
    · simp [isBullet, List.isPrefixOf, hne '-' (by decide),
        hne '*' (by decide)]
  · rw [List.isEmpty_iff.mp h]
    simp [tableStart, isHRuleLine, isQuote, isBullet, List.isPrefixOf]
  · simp only [Bool.and_eq_true, Bool.not_eq_true'] at h
    obtain ⟨⟨⟨hany, hbul⟩, hquo⟩, hhr⟩ := h
    exact ⟨by simp [tableStart, hany], hhr, hquo, hbul⟩

lemma mdBody_eq_fhBody (W : WidthFn) (s : Str) (y0 : ℚ)
    (ha : ∀ c ∈ s, c.toNat < 128) (hw : ¬ List.IsInfix weirdPat s)
    (hq : isQuote s = false) (hb : isBullet s = false) :
    mdBody W s y0 = fhBody W s y0 := by
  have hsub : ∀ (k : Nat), sanitize_text (s.drop k) = s.drop k := by
    intro k
    apply sanitize_id_of_clean
    · intro c hc
      exact ha c (List.drop_subset k s hc)
    · intro hinf
      exact hw (hinf.trans (List.drop_suffix k s).isInfix)
  unfold mdBody fhBody
  rw [if_neg (by simp [hq] : ¬ isQuote s = true)]
  by_cases h3 : isH3 s = true
  · rw [if_pos h3, if_pos h3, hsub 4]
  · rw [if_neg h3, if_neg h3]
    by_cases h2 : isH2 s = true
    · rw [if_pos h2, if_pos h2, hsub 3]
    · rw [if_neg h2, if_neg h2]
      by_cases h1 : isH1 s = true
      · rw [if_pos h1, if_pos h1, hsub 2]
      · rw [if_neg h1, if_neg h1]
        rw [if_neg (by simp [hb] : ¬ isBullet s = true),
          if_neg (by simp [hb] : ¬ isBullet s = true)]
        by_cases hn : isNumLine s = true
        · rw [if_pos hn, if_pos hn]
          rcases hnp : numParse s with _ | ⟨num, t⟩
          · rfl
          · obtain ⟨k, rfl⟩ := numParse_drop hnp
            dsimp only
            rw [hsub k]
        · rw [if_neg hn, if_neg hn]
          by_cases he : s = []
          · rw [if_pos he, if_pos he]
          · rw [if_neg he, if_neg he, sanitize_id_of_clean s ha hw]

lemma procF_eq (W : WidthFn) :
    ∀ (fuel : Nat) (lines : List Str) (y : ℚ),
      (∀ l ∈ lines, linePreB l = true) →
      mdProcF W fuel lines y = fhProcF W fuel lines y := by
  intro fuel
  induction fuel with
  | zero => intro lines y _; rfl
  | succ fuel ih =>
    intro lines y hpre
    cases lines with
    | nil => rfl
    | cons line rest =>
      have hl := hpre line (by simp)
      have hrest : ∀ l ∈ rest, linePreB l = true := fun l hl2 =>
        hpre l (by simp [hl2])
      rw [linePreB, Bool.and_eq_true] at hl
      obtain ⟨hshape, hnw⟩ := hl
      rw [lineShapeOk, Bool.and_eq_true] at hshape
      obtain ⟨hasciiB, hdisj⟩ := hshape
      have hasc : ∀ c ∈ line, c.toNat < 128 := by
        intro c hc
        exact of_decide_eq_true (List.all_eq_true.mp hasciiB c hc)
      simp only [Bool.or_eq_true] at hdisj
      obtain ⟨htab, hhr, hq, hb⟩ := shape_excl (pyStrip line) (by tauto)
      have hascS : ∀ c ∈ pyStrip line, c.toNat < 128 := fun c hc =>
        hasc c (pyStrip_subset hc)
      have hwS : ¬ List.IsInfix weirdPat (pyStrip line) := by
        intro hinf
        have h2 : List.IsInfix weirdPat line := hinf.trans (pyStrip_infix_self line)
        rw [← isSubstring_iff] at h2
        rw [h2] at hnw
        simp at hnw
      simp only [mdProcF, fhProcF]
      rw [if_neg (by simp [htab] : ¬ tableStart (pyStrip line) = true),
        if_neg (by simp [htab] : ¬ tableStart (pyStrip line) = true),
        if_neg (by simp [hhr] : ¬ isHRuleLine (pyStrip line) = true),
        mdBody_eq_fhBody W (pyStrip line) (pageY y) hascS hwS hq hb,
        ih rest (fhBody W (pyStrip line) (pageY y)).2 hrest]

/-- C9 (amended): the two source variants issue identical command sequences
for every ASCII-only title and every content whose trimmed lines are each a
heading, a numbered item, empty, or a paragraph with no pipe that does not
look like a bullet, quote or horizontal rule — provided, in addition to the
original claim, that neither the title nor any line contains the literal
15-character text replaced by `sanitize_text` (see `weirdPat`), since
`markdown_to_pdf.py` sanitizes that ASCII text while `filehandle.py` does
not. -/
theorem variants_agree (W : WidthFn) (title content : Str)
    (ht : ∀ c ∈ title, c.toNat < 128)
    (htw : ¬ List.IsInfix weirdPat title)
    (hc : ∀ l ∈ splitOnChar '\n' content, linePreB l = true) :
    create_pdf_from_text W title content =
      fh_create_pdf_from_text W title content := by
  unfold create_pdf_from_text fh_create_pdf_from_text mdProc fhProc
  rw [procF_eq W _ _ _ hc, sanitize_id_of_clean title ht htw]

/-- Witness for `variants_agree`: a heading, a blank line, a numbered item
and a paragraph produce the same trace in both variants. -/
theorem variants_agree_witness :
    create_pdf_from_text wq ['R'] c9content =
      fh_create_pdf_from_text wq ['R'] c9content :=
  variants_agree wq ['R'] c9content (by decide)
    (fun hinf => absurd hinf.length_le (by decide)) (by decide)

/-- C9 counterexample: the single-line ASCII content `c9bad` (the literal
text `, "'").replace(`) satisfies every shape condition of the claim, yet
the two variants produce different command sequences, because only
`markdown_to_pdf.py` replaces that text by a quote before drawing. -/
theorem variants_differ :
    (∀ l ∈ splitOnChar '\n' c9bad, lineShapeOk l = true) ∧
    create_pdf_from_text wq ['t'] c9bad ≠
      fh_create_pdf_from_text wq ['t'] c9bad := by
  constructor
  · decide
  · decide

end

end MdPdf
